import Mathlib

/-!
Verification of the AiNed FPGA access library and its Lights-Out layer
(`ained.c`, `mod_lightsout.c`).

The C library drives a memory-mapped FPGA device: a 128×64 bit grid stored
as 128 addressable 64-bit words, a 64-bit write-mask register, a bypass
register, twelve 32-bit coefficient registers and a block of per-dipole
registers.  The C code itself only loads and stores through the mapped
region; the masking behaviour of the device is part of the hardware
contract, so it is modelled here from the specification (see `devWrite`).

Machine integers are embedded as `Nat` with explicit truncation where
64-bit overflow matters; `uint32` guard arithmetic is embedded with
explicit `% 2^32`.  Fallible operations return the new state paired with
an `Option AinedError` mirroring the stderr diagnostic of the C code.
-/

/-- Tile width/height, `bsize` in `ained.c`. -/
def bsize : Nat := 8

/-- Number of 64-bit words of the memory plane, `num_words` in `ained.c`. -/
def num_words : Nat := 128

/-- Modulus of 32-bit unsigned arithmetic. -/
def U32 : Nat := 2 ^ 32

/-- All-ones 64-bit word, the value `0xFFFFFFFFFFFFFFFF`. -/
def MASK64 : Nat := 2 ^ 64 - 1

/-- The diagnostics the library prints to stderr, as named errors
(taxonomy of §7 of the specification). -/
inductive AinedError where
  | CrossWordConflict
  | NothingToCommit
  | OutOfRangeIndex
  deriving DecidableEq, Repr

/-- The device state visible through `struct ained` and the mapped regions:
the 64-bit memory words (an unbounded address map, the grid lives at words
`0..127`), the 64-bit write-mask register, the bypass register, the twelve
32-bit coefficient registers (flat map, positions `0..11`), the per-dipole
32-bit register block (flat map, dipole `d` owns positions `4*d..4*d+3`),
the detected dipole count, and the pending-transaction fields `index`,
`mask`, `value` of `struct ained`. -/
structure Ained where
  memory : Nat → Nat
  maskReg : Nat
  bypassReg : Bool
  coeff : Nat → Nat
  dipoleReg : Nat → Nat
  numDipoles : Nat
  index : Int
  mask : Nat
  value : Nat

/-- Modelled from the spec: the store semantics of the FPGA memory plane,
which is not part of the C sources.  §4.2: "only bits set in the mask are
actually modified by the device at commit time; unmasked bits in the
target word retain their prior value"; §4.3: "enabling [bypass] also
forces the write-mask register to all-ones (so a subsequent raw word
write affects every bit)".  So every store of `v` to word `i` lands as
`(old & ~maskReg) | (v & maskReg)` with a 64-bit complement.  Because
both disjuncts are `&&&`-bounded by values `< 2^64`, the stored word is
always a genuine 64-bit value. -/
def devWrite (s : Ained) (i v : Nat) : Ained :=
  { s with memory := fun j =>
      if j = i then (s.memory i &&& (MASK64 ^^^ s.maskReg)) ||| (v &&& s.maskReg)
      else s.memory j }

/-- `ained_get_index` of `ained.c`: word index of logical cell `(rows, columns)`. -/
def ained_get_index (rows columns : Nat) : Nat :=
  (rows / bsize) * 8 + columns / bsize

/-- `ained_get_word_index` of `ained.c`: bit index inside the word. -/
def ained_get_word_index (rows columns : Nat) : Nat :=
  (rows % bsize) * 8 + columns % bsize

/-- `ained_set_bypass` of `ained.c`: store the flag in the bypass register,
then force the write-mask register to all-ones (enable) or all-zeros
(disable).  Register stores are direct; masking only governs the memory
plane. -/
def ained_set_bypass (s : Ained) (enable : Bool) : Ained :=
  let s1 := { s with bypassReg := enable }
  if enable then { s1 with maskReg := MASK64 } else { s1 with maskReg := 0 }

/-- `ained_clear_memory` of `ained.c`: enable bypass, store zero to each of
the 128 words, disable bypass. -/
def ained_clear_memory (s : Ained) : Ained :=
  let s1 := ained_set_bypass s true
  let s2 := (List.range num_words).foldl (fun t j => devWrite t j 0) s1
  ained_set_bypass s2 false

/-- `ained_set_bit` of `ained.c`: reject with `CrossWordConflict` when a
transaction is pending on a different word, otherwise record the bit in
the pending `value`/`mask` pair (the mask bit is always set, the value
bit follows `value ≠ 0`). -/
def ained_set_bit (s : Ained) (row column value : Nat) : Ained × Option AinedError :=
  let index := ained_get_index row column
  let id := ained_get_word_index row column
  if 0 ≤ s.index ∧ (index : Int) ≠ s.index then
    (s, some AinedError.CrossWordConflict)
  else
    let s1 := { s with index := (index : Int) }
    if value ≠ 0 then
      ({ s1 with value := s1.value ||| (1 <<< id), mask := s1.mask ||| (1 <<< id) }, none)
    else
      ({ s1 with value := s1.value &&& (MASK64 ^^^ (1 <<< id)), mask := s1.mask ||| (1 <<< id) }, none)

/-- `ained_commit` of `ained.c`: report `NothingToCommit` if no transaction
is pending; otherwise store the pending mask into the write-mask register,
store the pending value to the pending word (a device store, hence
masked), and clear the pending transaction. -/
def ained_commit (s : Ained) : Ained × Option AinedError :=
  if s.index < 0 then (s, some AinedError.NothingToCommit)
  else
    let s1 := { s with maskReg := s.mask &&& MASK64 }
    let s2 := devWrite s1 s.index.toNat s.value
    ({ s2 with mask := 0, value := 0, index := -1 }, none)

/-- `ained_get_bit` of `ained.c`: read one bit of the grid. -/
def ained_get_bit (s : Ained) (row col : Nat) : Nat :=
  let of := ained_get_index row col
  let id := ained_get_word_index row col
  if s.memory of &&& (1 <<< id) ≠ 0 then 1 else 0

/-- `ained_flip_isolated_bit` of `ained.c`: XOR-toggle one bit by a direct
read-modify-write store of the containing word. -/
def ained_flip_isolated_bit (s : Ained) (row col : Nat) : Ained :=
  let word_index := ained_get_index row col
  let bit_index := ained_get_word_index row col
  devWrite s word_index (s.memory word_index ^^^ (1 <<< bit_index))

/-- `ained_get_board` of `mod_lightsout.c`: the calloc'ed snapshot array of
the sub-region, as a function from the flat index `num_col * row + col`
(cells beyond the array read as the calloc zero fill). -/
def ained_get_board (s : Ained) (start_row start_col num_row num_col : Nat) : Nat → Nat :=
  fun k =>
    if k < num_row * num_col then
      ained_get_bit s (start_row + k / num_col) (start_col + k % num_col)
    else 0

/-- `ained_flip_lights` of `mod_lightsout.c`.  The guard and the loop bound
reproduce the C `uint32` arithmetic: `start_row + num_row - 1` is computed
modulo `2^32` (so `num_row = 0` wraps around), and the loop bound
`num_row * num_col` is a `uint32` product. -/
def ained_flip_lights (s : Ained) (start_row start_col num_row num_col row col : Nat) : Ained :=
  if row < start_row ∨ (start_row + num_row + (U32 - 1)) % U32 < row
      ∨ col < start_col ∨ (start_col + num_col + (U32 - 1)) % U32 < col then s
  else
    let old_board := ained_get_board s start_row start_col num_row num_col
    let s1 := ained_clear_memory s
    let s2 := (ained_set_bit s1 (start_row + row) (start_col + col) 1).1
    let s3 := (ained_commit s2).1
    let s4 := ained_set_bypass s3 true
    let s5 := (List.range ((num_row * num_col) % U32)).foldl
      (fun t i =>
        if old_board i = 1 then
          ained_flip_isolated_bit t (start_row + i / num_col) (start_col + i % num_col)
        else t) s4
    let s6 := if 0 < row then ained_flip_isolated_bit s5 (start_row + row - 1) (start_col + col) else s5
    let s7 := if row < (num_row + (U32 - 1)) % U32 then
        ained_flip_isolated_bit s6 (start_row + row + 1) (start_col + col) else s6
    let s8 := if 0 < col then ained_flip_isolated_bit s7 (start_row + row) (start_col + col - 1) else s7
    let s9 := if col < (num_col + (U32 - 1)) % U32 then
        ained_flip_isolated_bit s8 (start_row + row) (start_col + col + 1) else s8
    ained_set_bypass s9 false

/-- `ained_get_dipole_rng` of `ained.c`: result is the current RNG output
register, the three seed registers reported through the out-parameters
(`none` when the call is rejected and the out-parameters are not written),
and the diagnostic. -/
def ained_get_dipole_rng (s : Ained) (dipole : Nat) :
    Nat × Option (Nat × Nat × Nat) × Option AinedError :=
  if dipole > s.numDipoles then
    (0, none, some AinedError.OutOfRangeIndex)
  else
    (s.dipoleReg (dipole * 4 + 0),
     some (s.dipoleReg (dipole * 4 + 1), s.dipoleReg (dipole * 4 + 2), s.dipoleReg (dipole * 4 + 3)),
     none)

/-- `ained_set_dipole_rng` of `ained.c`: store the three 32-bit seeds of
the addressed dipole. -/
def ained_set_dipole_rng (s : Ained) (dipole s0 s1 s2 : Nat) : Ained × Option AinedError :=
  if dipole > s.numDipoles then
    (s, some AinedError.OutOfRangeIndex)
  else
    ({ s with dipoleReg := fun k =>
        if k = dipole * 4 + 1 then s0 % U32
        else if k = dipole * 4 + 2 then s1 % U32
        else if k = dipole * 4 + 3 then s2 % U32
        else s.dipoleReg k }, none)

/-- `ained_set_coefficients` of `ained.c`: store one 32-bit coefficient
group register, rejecting indices above 11. -/
def ained_set_coefficients (s : Ained) (index value : Nat) : Ained × Option AinedError :=
  if index > 11 then (s, some AinedError.OutOfRangeIndex)
  else
    ({ s with coeff := fun k => if k = index then value % U32 else s.coeff k }, none)

/-- `ained_get_coefficients` of `ained.c`: read one coefficient group
register, returning the zero default for indices above 11. -/
def ained_get_coefficients (s : Ained) (index : Nat) : Nat × Option AinedError :=
  if index > 11 then (0, some AinedError.OutOfRangeIndex)
  else (s.coeff index, none)

-- Sanity checks of the embedding on concrete values (grid geometry).
example : ained_get_index 7 7 = 0 := by decide
example : ained_get_index 8 0 = 8 := by decide
example : ained_get_word_index 7 7 = 63 := by decide
example : ained_get_index 127 63 = 127 := by decide

/-! ### Bit-level view of the grid -/

/-- The physical bit of logical cell `(r, c)`, as a Boolean. -/
def memTestBit (s : Ained) (r c : Nat) : Bool :=
  (s.memory (ained_get_index r c)).testBit (ained_get_word_index r c)

lemma shiftLeft_one_eq (b : Nat) : 1 <<< b = 2 ^ b := by
  simp [Nat.shiftLeft_eq]

lemma and_two_pow_ne_zero_iff (x b : Nat) : x &&& 2 ^ b ≠ 0 ↔ x.testBit b = true := by
  constructor
  · intro h
    rcases Nat.ne_zero_implies_bit_true h with ⟨i, hi⟩
    rw [Nat.testBit_and, Nat.testBit_two_pow] at hi
    rcases Bool.and_eq_true_iff.mp hi with ⟨hx, hb⟩
    have : b = i := of_decide_eq_true hb
    simpa [this] using hx
  · intro h hz
    have : (x &&& 2 ^ b).testBit b = true := by
      rw [Nat.testBit_and, Nat.testBit_two_pow]
      simp [h]
    rw [hz] at this
    simp [Nat.zero_testBit] at this

lemma testBit_MASK64 (b : Nat) : MASK64.testBit b = decide (b < 64) := by
  show Nat.testBit (2 ^ 64 - 1) b = decide (b < 64)
  rw [Nat.testBit_two_pow_sub_one]

lemma ained_get_bit_eq (s : Ained) (r c : Nat) :
    ained_get_bit s r c = if memTestBit s r c then 1 else 0 := by
  show (if s.memory (ained_get_index r c) &&& (1 <<< ained_get_word_index r c) ≠ 0
      then 1 else 0) = _
  unfold memTestBit
  rw [shiftLeft_one_eq]
  by_cases h : (s.memory (ained_get_index r c)) &&& 2 ^ (ained_get_word_index r c) ≠ 0
  · rw [if_pos h, if_pos ((and_two_pow_ne_zero_iff _ _).mp h)]
  · rw [if_neg h]
    have hf : (s.memory (ained_get_index r c)).testBit (ained_get_word_index r c) = false := by
      by_contra hb
      exact h ((and_two_pow_ne_zero_iff _ _).mpr (eq_true_of_ne_false hb))
    rw [hf]
    simp

lemma ained_get_bit_eq_one_iff (s : Ained) (r c : Nat) :
    ained_get_bit s r c = 1 ↔ memTestBit s r c = true := by
  rw [ained_get_bit_eq]
  by_cases h : memTestBit s r c <;> simp [h]

/-- The bit index of any cell is below 64. -/
lemma ained_get_word_index_lt (r c : Nat) : ained_get_word_index r c < 64 := by
  unfold ained_get_word_index bsize
  have h1 : r % 8 < 8 := Nat.mod_lt _ (by norm_num)
  have h2 : c % 8 < 8 := Nat.mod_lt _ (by norm_num)
  omega

/-- The word index of an in-grid cell is below 128. -/
lemma ained_get_index_lt (r c : Nat) (hr : r < 128) (hc : c < 64) :
    ained_get_index r c < 128 := by
  unfold ained_get_index bsize
  omega

/-- Physical injectivity on the grid: two in-grid cells with the same word
index and the same bit index are the same cell (shared core of several
claims; this is the addressing invariant of §3). -/
lemma phys_inj {r c r' c' : Nat} (hr : r < 128) (hc : c < 64) (hr' : r' < 128) (hc' : c' < 64)
    (h1 : ained_get_index r c = ained_get_index r' c')
    (h2 : ained_get_word_index r c = ained_get_word_index r' c') :
    r = r' ∧ c = c' := by
  unfold ained_get_index at h1
  unfold ained_get_word_index at h2
  unfold bsize at h1 h2
  omega

/-! ### Frame lemmas for the operations -/

lemma devWrite_regs (s : Ained) (i v : Nat) :
    (devWrite s i v).maskReg = s.maskReg ∧ (devWrite s i v).bypassReg = s.bypassReg ∧
    (devWrite s i v).index = s.index ∧ (devWrite s i v).mask = s.mask ∧
    (devWrite s i v).value = s.value ∧ (devWrite s i v).coeff = s.coeff ∧
    (devWrite s i v).dipoleReg = s.dipoleReg ∧ (devWrite s i v).numDipoles = s.numDipoles := by
  unfold devWrite
  exact ⟨rfl, rfl, rfl, rfl, rfl, rfl, rfl, rfl⟩

lemma testBit_devWrite (s : Ained) (i v w b : Nat) :
    ((devWrite s i v).memory w).testBit b =
      if w = i then
        ((s.memory i).testBit b && (MASK64 ^^^ s.maskReg).testBit b)
          || (v.testBit b && s.maskReg.testBit b)
      else (s.memory w).testBit b := by
  unfold devWrite
  by_cases h : w = i <;> simp [h, Nat.testBit_or, Nat.testBit_and]

/-- Device store under an all-ones write mask: the word is replaced by the
low 64 bits of the stored value. -/
lemma testBit_devWrite_full (s : Ained) (hm : s.maskReg = MASK64) (i v w b : Nat) :
    ((devWrite s i v).memory w).testBit b =
      if w = i then (v.testBit b && decide (b < 64)) else (s.memory w).testBit b := by
  rw [testBit_devWrite, hm]
  by_cases h : w = i
  · have hx : MASK64 ^^^ MASK64 = 0 := Nat.xor_self _
    rw [if_pos h, if_pos h, hx, Nat.zero_testBit, Bool.and_false, Bool.false_or, testBit_MASK64]
  · rw [if_neg h, if_neg h]

/-- Device store under an all-zero write mask: the word keeps its low
64 bits (only out-of-range phantom bits of the model are dropped). -/
lemma testBit_devWrite_zero (s : Ained) (hm : s.maskReg = 0) (i v w b : Nat) (hb : b < 64) :
    ((devWrite s i v).memory w).testBit b = (s.memory w).testBit b := by
  rw [testBit_devWrite, hm]
  by_cases h : w = i
  · subst h
    rw [if_pos rfl, Nat.xor_zero, testBit_MASK64, decide_eq_true hb,
      Bool.and_true, Nat.zero_testBit, Bool.and_false, Bool.or_false]
  · rw [if_neg h]

lemma ained_set_bypass_memory (s : Ained) (e : Bool) :
    (ained_set_bypass s e).memory = s.memory := by
  unfold ained_set_bypass
  cases e <;> rfl

lemma ained_set_bypass_fields (s : Ained) (e : Bool) :
    (ained_set_bypass s e).maskReg = (if e then MASK64 else 0) ∧
    (ained_set_bypass s e).bypassReg = e ∧
    (ained_set_bypass s e).index = s.index ∧ (ained_set_bypass s e).mask = s.mask ∧
    (ained_set_bypass s e).value = s.value := by
  unfold ained_set_bypass
  cases e <;> exact ⟨rfl, rfl, rfl, rfl, rfl⟩

lemma memTestBit_set_bypass (s : Ained) (e : Bool) (r c : Nat) :
    memTestBit (ained_set_bypass s e) r c = memTestBit s r c := by
  unfold memTestBit
  rw [ained_set_bypass_memory]

lemma ained_flip_isolated_bit_regs (s : Ained) (r' c' : Nat) :
    (ained_flip_isolated_bit s r' c').maskReg = s.maskReg ∧
    (ained_flip_isolated_bit s r' c').bypassReg = s.bypassReg ∧
    (ained_flip_isolated_bit s r' c').index = s.index ∧
    (ained_flip_isolated_bit s r' c').mask = s.mask ∧
    (ained_flip_isolated_bit s r' c').value = s.value := by
  unfold ained_flip_isolated_bit devWrite
  exact ⟨rfl, rfl, rfl, rfl, rfl⟩

/-- Effect of `ained_flip_isolated_bit` at the bit level under an all-ones
write mask: exactly the addressed physical bit is complemented. -/
lemma memTestBit_flip (s : Ained) (hm : s.maskReg = MASK64) (r' c' r c : Nat) :
    memTestBit (ained_flip_isolated_bit s r' c') r c =
      xor (memTestBit s r c)
        (decide (ained_get_index r c = ained_get_index r' c' ∧
                 ained_get_word_index r c = ained_get_word_index r' c')) := by
  have hflip : ained_flip_isolated_bit s r' c' =
      devWrite s (ained_get_index r' c')
        (s.memory (ained_get_index r' c') ^^^ (1 <<< ained_get_word_index r' c')) := rfl
  unfold memTestBit
  rw [hflip, testBit_devWrite_full s hm]
  by_cases h : ained_get_index r c = ained_get_index r' c'
  · rw [if_pos h]
    by_cases h2 : ained_get_word_index r c = ained_get_word_index r' c'
    · simp [h, h2, Nat.testBit_xor, shiftLeft_one_eq, Nat.testBit_two_pow,
        ained_get_word_index_lt]
    · have h2' : ained_get_word_index r' c' ≠ ained_get_word_index r c :=
        fun hx => h2 hx.symm
      simp [h, h2, h2', Nat.testBit_xor, shiftLeft_one_eq, Nat.testBit_two_pow,
        ained_get_word_index_lt]
  · rw [if_neg h]
    simp [h]

/-- Generic preservation of the register and transaction fields through a
fold whose step only stores to the memory plane. -/
lemma foldl_preserve {α : Type} (f : Ained → α → Ained)
    (hf : ∀ t a, (f t a).maskReg = t.maskReg ∧ (f t a).bypassReg = t.bypassReg ∧
      (f t a).index = t.index ∧ (f t a).mask = t.mask ∧ (f t a).value = t.value)
    (l : List α) (s : Ained) :
    (l.foldl f s).maskReg = s.maskReg ∧ (l.foldl f s).bypassReg = s.bypassReg ∧
    (l.foldl f s).index = s.index ∧ (l.foldl f s).mask = s.mask ∧
    (l.foldl f s).value = s.value := by
  induction l generalizing s with
  | nil => exact ⟨rfl, rfl, rfl, rfl, rfl⟩
  | cons a l ih =>
    rw [List.foldl_cons]
    rcases ih (f s a) with ⟨i1, i2, i3, i4, i5⟩
    rcases hf s a with ⟨j1, j2, j3, j4, j5⟩
    exact ⟨i1.trans j1, i2.trans j2, i3.trans j3, i4.trans j4, i5.trans j5⟩

lemma devWrite_memory (s : Ained) (i v w : Nat) :
    (devWrite s i v).memory w =
      if w = i then (s.memory i &&& (MASK64 ^^^ s.maskReg)) ||| (v &&& s.maskReg)
      else s.memory w := rfl

lemma clear_fold_mem (n : Nat) (s : Ained) (hm : s.maskReg = MASK64) (w : Nat) :
    (((List.range n).foldl (fun t j => devWrite t j 0) s).memory w) =
      if w < n then 0 else s.memory w := by
  induction n with
  | zero => simp
  | succ n ih =>
    rw [List.range_succ, List.foldl_append, List.foldl_cons, List.foldl_nil]
    have hregs := foldl_preserve (fun t j => devWrite t j 0)
      (fun t a => ⟨rfl, rfl, rfl, rfl, rfl⟩) (List.range n) s
    have hmask : ((List.range n).foldl (fun t j => devWrite t j 0) s).maskReg = MASK64 :=
      hregs.1.trans hm
    rw [devWrite_memory, hmask]
    have hz : MASK64 ^^^ MASK64 = 0 := Nat.xor_self _
    by_cases h : w = n
    · subst h
      rw [if_pos rfl, hz, Nat.and_zero, Nat.zero_and, Nat.zero_or, if_pos (Nat.lt_succ_self w)]
    · rw [if_neg h, ih]
      by_cases h2 : w < n
      · rw [if_pos h2, if_pos (Nat.lt_succ_of_lt h2)]
      · rw [if_neg h2, if_neg (by omega)]

/-- Full characterisation of `ained_clear_memory`: all 128 grid words are
zeroed, the write-mask register ends at all-zeros, the bypass register
ends disabled, and the pending transaction is untouched. -/
lemma ained_clear_memory_spec (s : Ained) :
    (∀ w, (ained_clear_memory s).memory w = if w < 128 then 0 else s.memory w) ∧
    (ained_clear_memory s).maskReg = 0 ∧
    (ained_clear_memory s).bypassReg = false ∧
    (ained_clear_memory s).index = s.index ∧
    (ained_clear_memory s).mask = s.mask ∧
    (ained_clear_memory s).value = s.value := by
  have hc : ained_clear_memory s =
      ained_set_bypass
        ((List.range num_words).foldl (fun t j => devWrite t j 0) (ained_set_bypass s true))
        false := rfl
  rcases ained_set_bypass_fields s true with ⟨m1, b1, i1, k1, v1⟩
  have hregs := foldl_preserve (fun t j => devWrite t j 0)
    (fun t a => ⟨rfl, rfl, rfl, rfl, rfl⟩) (List.range num_words) (ained_set_bypass s true)
  rcases ained_set_bypass_fields
    ((List.range num_words).foldl (fun t j => devWrite t j 0) (ained_set_bypass s true))
    false with ⟨m2, b2, i2, k2, v2⟩
  refine ⟨?_, ?_, ?_, ?_, ?_, ?_⟩
  · intro w
    rw [hc, ained_set_bypass_memory]
    have := clear_fold_mem num_words (ained_set_bypass s true)
      (m1.trans (by simp)) w
    rw [this, ained_set_bypass_memory]
    rfl
  · rw [hc, m2]
    simp
  · rw [hc, b2]
  · rw [hc, i2, hregs.2.2.1, i1]
  · rw [hc, k2, hregs.2.2.2.1, k1]
  · rw [hc, v2, hregs.2.2.2.2, v1]

/-- `ained_set_bit` on a state with no pending transaction starts a
transaction on the addressed word and records the single bit. -/
lemma ained_set_bit_clean (s : Ained) (hi : s.index = -1) (hm : s.mask = 0)
    (hv : s.value = 0) (r c v : Nat) :
    ained_set_bit s r c v =
      ({ s with index := (ained_get_index r c : Int),
                value := if v ≠ 0 then 1 <<< ained_get_word_index r c else 0,
                mask := 1 <<< ained_get_word_index r c }, none) := by
  have hguard : ¬(0 ≤ s.index ∧ ((ained_get_index r c : Nat) : Int) ≠ s.index) := by
    rw [hi]
    rintro ⟨h0, -⟩
    omega
  simp only [ained_set_bit]
  rw [if_neg hguard]
  by_cases hv0 : v ≠ 0
  · rw [if_pos hv0, if_pos hv0, hv, hm, Nat.zero_or]
  · rw [if_neg hv0, if_neg hv0, hv, hm, Nat.zero_and, Nat.zero_or]

/-- `ained_commit` with a pending transaction. -/
lemma ained_commit_pending (s : Ained) (hw : 0 ≤ s.index) :
    ained_commit s =
      ({ devWrite { s with maskReg := s.mask &&& MASK64 } s.index.toNat s.value with
          mask := 0, value := 0, index := -1 }, none) := by
  simp only [ained_commit]
  rw [if_neg (by omega)]

lemma ained_commit_memory (s : Ained) (hw : 0 ≤ s.index) (w : Nat) :
    (ained_commit s).1.memory w =
      if w = s.index.toNat then
        (s.memory s.index.toNat &&& (MASK64 ^^^ (s.mask &&& MASK64)))
          ||| (s.value &&& (s.mask &&& MASK64))
      else s.memory w := by
  rw [ained_commit_pending s hw]
  rfl

lemma ained_commit_fields (s : Ained) (hw : 0 ≤ s.index) :
    (ained_commit s).1.index = -1 ∧ (ained_commit s).1.mask = 0 ∧
    (ained_commit s).1.value = 0 ∧
    (ained_commit s).1.bypassReg = s.bypassReg := by
  rw [ained_commit_pending s hw]
  exact ⟨rfl, rfl, rfl, rfl⟩

/-- After `clear`, then `set_bit (tr, tc) 1`, then `commit` (the first three
steps of `ained_flip_lights`), an in-grid cell reads `1` exactly when it
shares its physical location with the committed target, and the pending
transaction is cleared again. -/
lemma clear_set_commit_spec (s : Ained) (hi : s.index = -1) (hm : s.mask = 0)
    (hv : s.value = 0) (tr tc : Nat) :
    (∀ r c, r < 128 → c < 64 →
      memTestBit (ained_commit (ained_set_bit (ained_clear_memory s) tr tc 1).1).1 r c =
        decide (ained_get_index r c = ained_get_index tr tc ∧
                ained_get_word_index r c = ained_get_word_index tr tc)) ∧
    (ained_commit (ained_set_bit (ained_clear_memory s) tr tc 1).1).1.index = -1 ∧
    (ained_commit (ained_set_bit (ained_clear_memory s) tr tc 1).1).1.mask = 0 ∧
    (ained_commit (ained_set_bit (ained_clear_memory s) tr tc 1).1).1.value = 0 := by
  rcases ained_clear_memory_spec s with ⟨hcmem, -, -, hcidx, hcmk, hcvl⟩
  have hsb := ained_set_bit_clean (ained_clear_memory s)
    (hcidx.trans hi) (hcmk.trans hm) (hcvl.trans hv) tr tc 1
  have hAi : (ained_set_bit (ained_clear_memory s) tr tc 1).1.index =
      (ained_get_index tr tc : Int) := by rw [hsb]
  have hAv : (ained_set_bit (ained_clear_memory s) tr tc 1).1.value =
      1 <<< ained_get_word_index tr tc := by rw [hsb]; simp
  have hAm : (ained_set_bit (ained_clear_memory s) tr tc 1).1.mask =
      1 <<< ained_get_word_index tr tc := by rw [hsb]
  have hAmem : (ained_set_bit (ained_clear_memory s) tr tc 1).1.memory =
      (ained_clear_memory s).memory := by rw [hsb]
  have hpos : 0 ≤ (ained_set_bit (ained_clear_memory s) tr tc 1).1.index := by
    rw [hAi]; positivity
  have htoNat : (ained_set_bit (ained_clear_memory s) tr tc 1).1.index.toNat =
      ained_get_index tr tc := by rw [hAi]; simp
  rcases ained_commit_fields _ hpos with ⟨hf1, hf2, hf3, -⟩
  refine ⟨?_, hf1, hf2, hf3⟩
  intro r c hr hc
  unfold memTestBit
  rw [ained_commit_memory _ hpos, htoNat, hAmem, hAv, hAm]
  have hlt : ained_get_word_index r c < 64 := ained_get_word_index_lt r c
  by_cases h : ained_get_index r c = ained_get_index tr tc
  · rw [if_pos h]
    have hmem0 : (ained_clear_memory s).memory (ained_get_index tr tc) = 0 := by
      rw [hcmem, if_pos (h ▸ ained_get_index_lt r c hr hc)]
    rw [hmem0, Nat.zero_and, Nat.zero_or]
    by_cases h2 : ained_get_word_index r c = ained_get_word_index tr tc
    · simp [h, h2, shiftLeft_one_eq, Nat.testBit_and, Nat.testBit_two_pow, testBit_MASK64,
        ained_get_word_index_lt]
    · have h2' : ained_get_word_index tr tc ≠ ained_get_word_index r c :=
        fun hx => h2 hx.symm
      simp [h, h2, h2', shiftLeft_one_eq, Nat.testBit_and, Nat.testBit_two_pow]
  · rw [if_neg h]
    have hmem0 : (ained_clear_memory s).memory (ained_get_index r c) = 0 := by
      rw [hcmem, if_pos (ained_get_index_lt r c hr hc)]
    rw [hmem0, Nat.zero_testBit]
    simp [h]

/-- Count of a predicate over `List.range N` when the predicate can hold
at no index other than `k`. -/
lemma countP_range_single (p : Nat → Bool) (N k : Nat)
    (hk : ∀ i, i < N → p i = true → i = k) :
    (List.range N).countP p = if k < N ∧ p k = true then 1 else 0 := by
  induction N with
  | zero => simp
  | succ N ih =>
    rw [List.range_succ, List.countP_append,
      ih (fun i hi hp => hk i (Nat.lt_succ_of_lt hi) hp)]
    have hsingle : List.countP p [N] = if p N = true then 1 else 0 := by
      by_cases hN : p N = true <;> simp [List.countP_cons, hN]
    rw [hsingle]
    by_cases hN : p N = true
    · have hkN : N = k := hk N (Nat.lt_succ_self N) hN
      subst hkN
      rw [if_neg (by omega), if_pos hN, if_pos ⟨Nat.lt_succ_self N, hN⟩]
    · rw [if_neg hN]
      by_cases h2 : k < N ∧ p k = true
      · rw [if_pos h2, if_pos ⟨Nat.lt_succ_of_lt h2.1, h2.2⟩]
      · rw [if_neg h2, if_neg ?_, Nat.add_zero]
        rintro ⟨h3, h4⟩
        rcases Nat.lt_succ_iff_lt_or_eq.mp h3 with h5 | h5
        · exact h2 ⟨h5, h4⟩
        · rw [h5] at h4
          exact hN h4

lemma parity_step (b hit : Bool) (n : Nat) :
    xor (xor b hit) (decide (n % 2 = 1)) =
      xor b (decide ((n + if hit then 1 else 0) % 2 = 1)) := by
  cases hit
  · simp
  · rcases Nat.mod_two_eq_zero_or_one n with h | h
    · rw [if_pos rfl, decide_eq_false (by omega : ¬(n % 2 = 1)),
        decide_eq_true (by omega : (n + 1) % 2 = 1)]
      cases b <;> rfl
    · rw [if_pos rfl, decide_eq_true h,
        decide_eq_false (by omega : ¬((n + 1) % 2 = 1))]
      cases b <;> rfl

/-- The per-bit effect of the conditional-flip restore loop of
`ained_flip_lights`: a physical bit is complemented once per loop index
whose condition holds and whose cell addresses that bit, so it ends
XORed with the parity of that count. -/
lemma memTestBit_foldl_flip (cond : Nat → Prop) [DecidablePred cond]
    (cellr cellc : Nat → Nat)
    (l : List Nat) (s : Ained) (hm : s.maskReg = MASK64) (r c : Nat) :
    memTestBit
      (l.foldl (fun t i =>
        if cond i then ained_flip_isolated_bit t (cellr i) (cellc i) else t) s) r c
    = xor (memTestBit s r c)
        (decide ((l.countP (fun i => decide (cond i) &&
            decide (ained_get_index r c = ained_get_index (cellr i) (cellc i) ∧
              ained_get_word_index r c = ained_get_word_index (cellr i) (cellc i)))) % 2
          = 1)) := by
  induction l generalizing s with
  | nil => simp
  | cons a l ih =>
    rw [List.foldl_cons, List.countP_cons]
    by_cases ha : cond a
    · rw [if_pos ha]
      have hm' : (ained_flip_isolated_bit s (cellr a) (cellc a)).maskReg = MASK64 :=
        (ained_flip_isolated_bit_regs s _ _).1.trans hm
      rw [ih _ hm', memTestBit_flip s hm, parity_step]
      simp only [decide_eq_true ha, Bool.true_and]
    · rw [if_neg ha, ih _ hm]
      simp only [decide_eq_false ha, Bool.false_and]
      rfl

lemma foldl_flip_maskReg (cond : Nat → Prop) [DecidablePred cond]
    (cellr cellc : Nat → Nat) (l : List Nat) (s : Ained) :
    ((l.foldl (fun t i =>
      if cond i then ained_flip_isolated_bit t (cellr i) (cellc i) else t) s)).maskReg
      = s.maskReg ∧
    ((l.foldl (fun t i =>
      if cond i then ained_flip_isolated_bit t (cellr i) (cellc i) else t) s)).index
      = s.index ∧
    ((l.foldl (fun t i =>
      if cond i then ained_flip_isolated_bit t (cellr i) (cellc i) else t) s)).mask
      = s.mask ∧
    ((l.foldl (fun t i =>
      if cond i then ained_flip_isolated_bit t (cellr i) (cellc i) else t) s)).value
      = s.value := by
  have h := foldl_preserve
    (fun t i => if cond i then ained_flip_isolated_bit t (cellr i) (cellc i) else t)
    (fun t a => by
      by_cases hc : cond a
      · have hstep : (fun t i => if cond i then
            ained_flip_isolated_bit t (cellr i) (cellc i) else t) t a =
              ained_flip_isolated_bit t (cellr a) (cellc a) := by
          simp [hc]
        rw [hstep]
        rcases ained_flip_isolated_bit_regs t (cellr a) (cellc a) with ⟨j1, j2, j3, j4, j5⟩
        exact ⟨j1, j2, j3, j4, j5⟩
      · have hstep : (fun t i => if cond i then
            ained_flip_isolated_bit t (cellr i) (cellc i) else t) t a = t := by
          simp [hc]
        rw [hstep]
        exact ⟨rfl, rfl, rfl, rfl, rfl⟩) l s
  exact ⟨h.1, h.2.2.1, h.2.2.2.1, h.2.2.2.2⟩

/-- A guarded flip (the four cross toggles of `ained_flip_lights`). -/
lemma memTestBit_ite_flip (P : Prop) [Decidable P] (s : Ained) (hm : s.maskReg = MASK64)
    (a b r c : Nat) :
    memTestBit (if P then ained_flip_isolated_bit s a b else s) r c =
      xor (memTestBit s r c)
        (decide P && decide (ained_get_index r c = ained_get_index a b ∧
          ained_get_word_index r c = ained_get_word_index a b)) := by
  by_cases hp : P
  · rw [if_pos hp, memTestBit_flip s hm, decide_eq_true hp, Bool.true_and]
  · rw [if_neg hp, decide_eq_false hp, Bool.false_and, Bool.xor_false]

lemma ite_flip_maskReg (P : Prop) [Decidable P] (s : Ained) (a b : Nat) :
    ((if P then ained_flip_isolated_bit s a b else s)).maskReg = s.maskReg := by
  by_cases hp : P
  · rw [if_pos hp]
    exact (ained_flip_isolated_bit_regs s a b).1
  · rw [if_neg hp]

/-- The state-independent XOR pattern that one guard-passing
`ained_flip_lights` call applies to the sub-region cell
`(start_row + i, start_col + j)`: the committed target bit plus the four
guarded cross toggles, each contributing when it lands on this cell's
physical bit. -/
def flipDelta (start_row start_col num_row num_col row col i j : Nat) : Bool :=
  xor (xor (xor (xor
    (decide (ained_get_index (start_row + i) (start_col + j) =
        ained_get_index (start_row + row) (start_col + col) ∧
      ained_get_word_index (start_row + i) (start_col + j) =
        ained_get_word_index (start_row + row) (start_col + col)))
    (decide (0 < row) &&
      decide (ained_get_index (start_row + i) (start_col + j) =
          ained_get_index (start_row + row - 1) (start_col + col) ∧
        ained_get_word_index (start_row + i) (start_col + j) =
          ained_get_word_index (start_row + row - 1) (start_col + col))))
    (decide (row < (num_row + (U32 - 1)) % U32) &&
      decide (ained_get_index (start_row + i) (start_col + j) =
          ained_get_index (start_row + row + 1) (start_col + col) ∧
        ained_get_word_index (start_row + i) (start_col + j) =
          ained_get_word_index (start_row + row + 1) (start_col + col))))
    (decide (0 < col) &&
      decide (ained_get_index (start_row + i) (start_col + j) =
          ained_get_index (start_row + row) (start_col + col - 1) ∧
        ained_get_word_index (start_row + i) (start_col + j) =
          ained_get_word_index (start_row + row) (start_col + col - 1))))
    (decide (col < (num_col + (U32 - 1)) % U32) &&
      decide (ained_get_index (start_row + i) (start_col + j) =
          ained_get_index (start_row + row) (start_col + col + 1) ∧
        ained_get_word_index (start_row + i) (start_col + j) =
          ained_get_word_index (start_row + row) (start_col + col + 1)))

/-- One guard-passing `ained_flip_lights` call changes each sub-region cell by
XOR with the state-independent pattern `flipDelta`: the snapshot/clear/commit/
restore choreography re-creates every sub-region bit from its own old value. -/
lemma flip_lights_delta
    (s : Ained) (hidx : s.index = -1) (hmk : s.mask = 0) (hvl : s.value = 0)
    (start_row start_col num_row num_col row col : Nat)
    (hrows : start_row + num_row ≤ 128) (hcols : start_col + num_col ≤ 64)
    (hguard : ¬(row < start_row ∨ (start_row + num_row + (U32 - 1)) % U32 < row
      ∨ col < start_col ∨ (start_col + num_col + (U32 - 1)) % U32 < col))
    (i j : Nat) (hir : i < num_row) (hjc : j < num_col) :
    memTestBit (ained_flip_lights s start_row start_col num_row num_col row col)
        (start_row + i) (start_col + j) =
      xor (memTestBit s (start_row + i) (start_col + j))
        (flipDelta start_row start_col num_row num_col row col i j) := by
  have hnc : 0 < num_col := by omega
  have hxr : start_row + i < 128 := by omega
  have hxc : start_col + j < 64 := by omega
  have hN : num_row * num_col % U32 = num_row * num_col := by
    apply Nat.mod_eq_of_lt
    calc num_row * num_col ≤ 128 * 64 := Nat.mul_le_mul (by omega) (by omega)
      _ < U32 := by norm_num [U32]
  rcases clear_set_commit_spec s hidx hmk hvl (start_row + row) (start_col + col)
    with ⟨hB, hBi, hBm, hBv⟩
  simp only [ained_flip_lights]
  rw [if_neg hguard]
  set B := (ained_commit (ained_set_bit (ained_clear_memory s)
    (start_row + row) (start_col + col) 1).1).1 with hBdef
  set s4 := ained_set_bypass B true with hs4def
  set s5 := (List.range (num_row * num_col % U32)).foldl
      (fun t i' =>
        if ained_get_board s start_row start_col num_row num_col i' = 1 then
          ained_flip_isolated_bit t (start_row + i' / num_col) (start_col + i' % num_col)
        else t) s4 with hs5def
  set s6 := if 0 < row then
      ained_flip_isolated_bit s5 (start_row + row - 1) (start_col + col) else s5 with hs6def
  set s7 := if row < (num_row + (U32 - 1)) % U32 then
      ained_flip_isolated_bit s6 (start_row + row + 1) (start_col + col) else s6 with hs7def
  set s8 := if 0 < col then
      ained_flip_isolated_bit s7 (start_row + row) (start_col + col - 1) else s7 with hs8def
  have hm4 : s4.maskReg = MASK64 := by
    rw [hs4def]
    exact (ained_set_bypass_fields B true).1.trans (if_pos rfl)
  have hm5 : s5.maskReg = MASK64 := by
    rw [hs5def]
    exact (foldl_flip_maskReg _ _ _ _ s4).1.trans hm4
  have hm6 : s6.maskReg = MASK64 := by
    rw [hs6def]
    exact (ite_flip_maskReg _ _ _ _).trans hm5
  have hm7 : s7.maskReg = MASK64 := by
    rw [hs7def]
    exact (ite_flip_maskReg _ _ _ _).trans hm6
  have hm8 : s8.maskReg = MASK64 := by
    rw [hs8def]
    exact (ite_flip_maskReg _ _ _ _).trans hm7
  rw [memTestBit_set_bypass]
  rw [memTestBit_ite_flip _ s8 hm8]
  rw [hs8def, memTestBit_ite_flip _ s7 hm7]
  rw [hs7def, memTestBit_ite_flip _ s6 hm6]
  rw [hs6def, memTestBit_ite_flip _ s5 hm5]
  rw [hs5def, memTestBit_foldl_flip
    (fun i' => ained_get_board s start_row start_col num_row num_col i' = 1)
    (fun i' => start_row + i' / num_col) (fun i' => start_col + i' % num_col)
    (List.range (num_row * num_col % U32)) s4 hm4]
  rw [hs4def, memTestBit_set_bypass]
  rw [hB _ _ hxr hxc]
  have hk : ∀ idx, idx < num_row * num_col →
      (decide (ained_get_board s start_row start_col num_row num_col idx = 1) &&
        decide (ained_get_index (start_row + i) (start_col + j) =
            ained_get_index (start_row + idx / num_col) (start_col + idx % num_col) ∧
          ained_get_word_index (start_row + i) (start_col + j) =
            ained_get_word_index (start_row + idx / num_col) (start_col + idx % num_col)))
          = true →
      idx = num_col * i + j := by
    intro idx hlt hp
    rw [Bool.and_eq_true] at hp
    have hphys := of_decide_eq_true hp.2
    have hdiv : idx / num_col < num_row := by
      rw [Nat.div_lt_iff_lt_mul hnc]
      omega
    have hmod : idx % num_col < num_col := Nat.mod_lt _ hnc
    have hr1 : start_row + idx / num_col < 128 := by omega
    have hc1 : start_col + idx % num_col < 64 := by omega
    obtain ⟨hinj1, hinj2⟩ := phys_inj hxr hxc hr1 hc1 hphys.1 hphys.2
    have hi1 : i = idx / num_col := by omega
    have hj1 : j = idx % num_col := by omega
    rw [hi1, hj1]
    have hdm := Nat.div_add_mod idx num_col
    omega
  have hcount := countP_range_single
    (fun i' => decide (ained_get_board s start_row start_col num_row num_col i' = 1) &&
      decide (ained_get_index (start_row + i) (start_col + j) =
          ained_get_index (start_row + i' / num_col) (start_col + i' % num_col) ∧
        ained_get_word_index (start_row + i) (start_col + j) =
          ained_get_word_index (start_row + i' / num_col) (start_col + i' % num_col)))
    (num_row * num_col % U32) (num_col * i + j)
    (by rw [hN]; exact hk)
  rw [hcount]
  have hklt : num_col * i + j < num_row * num_col := by
    calc num_col * i + j < num_col * i + num_col := by omega
      _ = num_col * (i + 1) := (Nat.mul_succ num_col i).symm
      _ ≤ num_col * num_row := Nat.mul_le_mul_left num_col hir
      _ = num_row * num_col := Nat.mul_comm _ _
  have hkdiv : (num_col * i + j) / num_col = i := by
    rw [Nat.mul_add_div hnc, Nat.div_eq_of_lt hjc, Nat.add_zero]
  have hkmod : (num_col * i + j) % num_col = j := by
    rw [Nat.mul_add_mod]
    exact Nat.mod_eq_of_lt hjc
  have hboard : ained_get_board s start_row start_col num_row num_col (num_col * i + j) =
      ained_get_bit s (start_row + i) (start_col + j) := by
    unfold ained_get_board
    rw [if_pos hklt, hkdiv, hkmod]
  have hifparity : (if num_col * i + j < num_row * num_col % U32 ∧
      (decide (ained_get_board s start_row start_col num_row num_col (num_col * i + j) = 1) &&
        decide (ained_get_index (start_row + i) (start_col + j) =
            ained_get_index (start_row + (num_col * i + j) / num_col)
              (start_col + (num_col * i + j) % num_col) ∧
          ained_get_word_index (start_row + i) (start_col + j) =
            ained_get_word_index (start_row + (num_col * i + j) / num_col)
              (start_col + (num_col * i + j) % num_col))) = true
      then 1 else 0) = if memTestBit s (start_row + i) (start_col + j) then 1 else 0 := by
    rw [hN, hboard, hkdiv, hkmod]
    by_cases hmb : memTestBit s (start_row + i) (start_col + j) = true
    · rw [if_pos ⟨hklt, by
        rw [(ained_get_bit_eq_one_iff s (start_row + i) (start_col + j)).mpr hmb]
        simp⟩]
      rw [hmb]
      rfl
    · have hmb' : memTestBit s (start_row + i) (start_col + j) = false := by
        revert hmb
        cases memTestBit s (start_row + i) (start_col + j) <;> simp
      rw [hmb']
      rw [if_neg ?_, if_neg (by simp)]
      rintro ⟨-, hc2⟩
      rw [Bool.and_eq_true] at hc2
      have := of_decide_eq_true hc2.1
      rw [ained_get_bit_eq, hmb'] at this
      simp at this
  rw [hifparity]
  have hparity : decide ((if memTestBit s (start_row + i) (start_col + j)
      then (1 : Nat) else 0) % 2 = 1) = memTestBit s (start_row + i) (start_col + j) := by
    cases hmb : memTestBit s (start_row + i) (start_col + j) <;> simp [hmb]
  rw [hparity]
  simp only [flipDelta]
  simp only [Bool.xor_assoc]
  rw [← Bool.xor_assoc, Bool.xor_comm (decide (ained_get_index (start_row + i) (start_col + j) =
      ained_get_index (start_row + row) (start_col + col) ∧
    ained_get_word_index (start_row + i) (start_col + j) =
      ained_get_word_index (start_row + row) (start_col + col)))
    (memTestBit s (start_row + i) (start_col + j)), Bool.xor_assoc]

lemma ite_flip_fields (P : Prop) [Decidable P] (s : Ained) (a b : Nat) :
    ((if P then ained_flip_isolated_bit s a b else s)).index = s.index ∧
    ((if P then ained_flip_isolated_bit s a b else s)).mask = s.mask ∧
    ((if P then ained_flip_isolated_bit s a b else s)).value = s.value := by
  by_cases hp : P
  · rw [if_pos hp]
    rcases ained_flip_isolated_bit_regs s a b with ⟨-, -, j3, j4, j5⟩
    exact ⟨j3, j4, j5⟩
  · rw [if_neg hp]
    exact ⟨rfl, rfl, rfl⟩

/-- `ained_flip_lights` keeps the transaction buffer quiescent: starting from
no pending transaction it ends with no pending transaction (its one
`ained_commit` clears what its one `ained_set_bit` opened). -/
lemma flip_lights_clean (s : Ained) (hidx : s.index = -1) (hmk : s.mask = 0)
    (hvl : s.value = 0) (start_row start_col num_row num_col row col : Nat) :
    (ained_flip_lights s start_row start_col num_row num_col row col).index = -1 ∧
    (ained_flip_lights s start_row start_col num_row num_col row col).mask = 0 ∧
    (ained_flip_lights s start_row start_col num_row num_col row col).value = 0 := by
  by_cases hg : (row < start_row ∨ (start_row + num_row + (U32 - 1)) % U32 < row
      ∨ col < start_col ∨ (start_col + num_col + (U32 - 1)) % U32 < col)
  · simp only [ained_flip_lights]
    rw [if_pos hg]
    exact ⟨hidx, hmk, hvl⟩
  · rcases clear_set_commit_spec s hidx hmk hvl (start_row + row) (start_col + col)
      with ⟨-, hBi, hBm, hBv⟩
    simp only [ained_flip_lights]
    rw [if_neg hg]
    refine ⟨?_, ?_, ?_⟩
    · exact ((ained_set_bypass_fields _ false).2.2.1).trans
        (((ite_flip_fields _ _ _ _).1).trans
         (((ite_flip_fields _ _ _ _).1).trans
          (((ite_flip_fields _ _ _ _).1).trans
           (((ite_flip_fields _ _ _ _).1).trans
            (((foldl_flip_maskReg _ _ _ _ _).2.1).trans
             (((ained_set_bypass_fields _ true).2.2.1).trans hBi))))))
    · exact ((ained_set_bypass_fields _ false).2.2.2.1).trans
        (((ite_flip_fields _ _ _ _).2.1).trans
         (((ite_flip_fields _ _ _ _).2.1).trans
          (((ite_flip_fields _ _ _ _).2.1).trans
           (((ite_flip_fields _ _ _ _).2.1).trans
            (((foldl_flip_maskReg _ _ _ _ _).2.2.1).trans
             (((ained_set_bypass_fields _ true).2.2.2.1).trans hBm))))))
    · exact ((ained_set_bypass_fields _ false).2.2.2.2).trans
        (((ite_flip_fields _ _ _ _).2.2).trans
         (((ite_flip_fields _ _ _ _).2.2).trans
          (((ite_flip_fields _ _ _ _).2.2).trans
           (((ite_flip_fields _ _ _ _).2.2).trans
            (((foldl_flip_maskReg _ _ _ _ _).2.2.2).trans
             (((ained_set_bypass_fields _ true).2.2.2.2).trans hBv))))))

/-- A concrete quiescent device: all-zero grid and registers, no pending
transaction (used to instantiate the universally quantified theorems). -/
def S0 : Ained :=
  { memory := fun _ => 0, maskReg := 0, bypassReg := false, coeff := fun _ => 0,
    dipoleReg := fun _ => 0, numDipoles := 0, index := -1, mask := 0, value := 0 }

/-- The same device with the write mask forced to all-ones, as after
`ained_set_bypass _ true`. -/
def S0M : Ained := { S0 with maskReg := MASK64, bypassReg := true }

/-- C2: toggle-propagation is self-inverse on the sub-region.  For every
grid state (with a quiescent transaction buffer), every sub-region inside
the 128×64 grid and the same `(row, col)` arguments passed twice with no
intervening modification, every cell of the sub-region reads its original
pre-call value again.  Holds because one guard-passing call XORs each
sub-region cell with the state-independent pattern `flipDelta`, and a
guard-failing call changes nothing. -/
theorem C2_flip_lights_self_inverse
    (s : Ained) (hidx : s.index = -1) (hmk : s.mask = 0) (hvl : s.value = 0)
    (start_row start_col num_row num_col row col : Nat)
    (hrows : start_row + num_row ≤ 128) (hcols : start_col + num_col ≤ 64)
    (i j : Nat) (hir : i < num_row) (hjc : j < num_col) :
    ained_get_bit
      (ained_flip_lights (ained_flip_lights s start_row start_col num_row num_col row col)
        start_row start_col num_row num_col row col)
      (start_row + i) (start_col + j) =
      ained_get_bit s (start_row + i) (start_col + j) := by
  by_cases hg : (row < start_row ∨ (start_row + num_row + (U32 - 1)) % U32 < row
      ∨ col < start_col ∨ (start_col + num_col + (U32 - 1)) % U32 < col)
  · have h1 : ained_flip_lights s start_row start_col num_row num_col row col = s := by
      simp only [ained_flip_lights]
      rw [if_pos hg]
    rw [h1, h1]
  · obtain ⟨h2i, h2m, h2v⟩ :=
      flip_lights_clean s hidx hmk hvl start_row start_col num_row num_col row col
    have e1 := flip_lights_delta s hidx hmk hvl start_row start_col num_row num_col
      row col hrows hcols hg i j hir hjc
    have e2 := flip_lights_delta _ h2i h2m h2v start_row start_col num_row num_col
      row col hrows hcols hg i j hir hjc
    rw [ained_get_bit_eq, ained_get_bit_eq, e2, e1, Bool.xor_assoc, Bool.xor_self,
      Bool.xor_false]

theorem C2_flip_lights_self_inverse_witness :
    ained_get_bit (ained_flip_lights (ained_flip_lights S0 0 0 2 2 0 0) 0 0 2 2 0 0) 0 0 =
      ained_get_bit S0 0 0 :=
  C2_flip_lights_self_inverse S0 rfl rfl rfl 0 0 2 2 0 0 (by norm_num) (by norm_num)
    0 0 (by norm_num) (by norm_num)

/-- C10: when the target arguments fail the entry guard of
`ained_flip_lights` — `row < start_row`, `row > start_row + num_row - 1`,
`col < start_col`, or `col > start_col + num_col - 1` — the function
returns immediately and the entire device state (grid words, pending
transaction, bypass flag and all registers) is unchanged. -/
theorem C10_flip_lights_guard_reject
    (s : Ained) (start_row start_col num_row num_col row col : Nat)
    (hnr : 1 ≤ num_row) (hnc : 1 ≤ num_col)
    (hsr : start_row + num_row < U32) (hsc : start_col + num_col < U32)
    (h : row < start_row ∨ start_row + num_row ≤ row
      ∨ col < start_col ∨ start_col + num_col ≤ col) :
    ained_flip_lights s start_row start_col num_row num_col row col = s := by
  have e1 : (start_row + num_row + (U32 - 1)) % U32 = start_row + num_row - 1 := by
    unfold U32 at *
    omega
  have e2 : (start_col + num_col + (U32 - 1)) % U32 = start_col + num_col - 1 := by
    unfold U32 at *
    omega
  simp only [ained_flip_lights]
  rw [if_pos ?_]
  rw [e1, e2]
  omega

theorem C10_flip_lights_guard_reject_witness :
    ained_flip_lights S0 0 0 1 1 5 5 = S0 :=
  C10_flip_lights_guard_reject S0 0 0 1 1 5 5 (by norm_num) (by norm_num)
    (by norm_num [U32]) (by norm_num [U32]) (by norm_num)

/-- C1: evaluation of `ained_flip_lights` at a guard-accepted input with a
non-zero region origin.  The sub-region is rows 2..4 of column 0 and the
target arguments are `(row, col) = (2, 0)`, accepted by the entry guard as
the first cell of the sub-region; the claim requires the target cell's bit
to be flipped from 0 to 1, but on the all-zero grid the cell `(2, 0)`
still reads 0 afterwards (the body adds `start_row`/`start_col` again and
commits the set-bit to `(4, 0)` while cross-toggling `(3, 0)`). -/
theorem C1_flip_lights_target_not_flipped :
    ained_get_bit S0 2 0 = 0 ∧
    ained_get_bit (ained_flip_lights S0 2 0 3 1 2 0) 2 0 = 0 ∧
    ained_get_bit (ained_flip_lights S0 2 0 3 1 2 0) 4 0 = 1 := by
  refine ⟨rfl, ?_, ?_⟩ <;> decide

/-- C3 counterexample: `ained_clear_memory` does not restore the bypass
flag to its pre-call value — starting with bypass enabled, the flag reads
disabled after the call (the code unconditionally ends with
`ained_set_bypass(handle, false)`, as its own header documents). -/
theorem C3_clear_memory_bypass_counterexample :
    S0M.bypassReg = true ∧ (ained_clear_memory S0M).bypassReg = false := by
  refine ⟨rfl, ?_⟩
  exact (ained_clear_memory_spec S0M).2.2.1

/-- C3 amended: after `ained_clear_memory` every one of the 8192 grid bits
reads 0, and the bypass flag is disabled (false) afterwards regardless of
its pre-call value. -/
theorem C3_clear_memory_amended (s : Ained) (r c : Nat) (hr : r < 128) (hc : c < 64) :
    ained_get_bit (ained_clear_memory s) r c = 0 ∧
    (ained_clear_memory s).bypassReg = false := by
  rcases ained_clear_memory_spec s with ⟨hm, -, hb, -, -, -⟩
  refine ⟨?_, hb⟩
  rw [ained_get_bit_eq]
  have hz : memTestBit (ained_clear_memory s) r c = false := by
    unfold memTestBit
    rw [hm, if_pos (ained_get_index_lt r c hr hc), Nat.zero_testBit]
  rw [hz]
  rfl

theorem C3_clear_memory_amended_witness :
    ained_get_bit (ained_clear_memory S0M) 5 6 = 0 ∧
    (ained_clear_memory S0M).bypassReg = false :=
  C3_clear_memory_amended S0M 5 6 (by norm_num) (by norm_num)

/-- C9 counterexample: with the write-mask register at all-zeros (bypass
disabled), `ained_flip_isolated_bit` does not complement the addressed
bit — the store is fully masked off by the device, so bit `(0,0)` of the
all-zero grid still reads 0 instead of 1. -/
theorem C9_flip_isolated_counterexample :
    ained_get_bit S0 0 0 = 0 ∧ S0.maskReg = 0 ∧
    ained_get_bit (ained_flip_isolated_bit S0 0 0) 0 0 = 0 := by
  refine ⟨rfl, rfl, ?_⟩
  decide

/-- C9 amended: under an all-ones write mask (bypass enabled),
`ained_flip_isolated_bit` complements exactly the addressed in-grid bit,
leaves every other grid cell unchanged, and applying it twice restores
every grid cell. -/
theorem C9_flip_isolated_amended (s : Ained) (hm : s.maskReg = MASK64)
    (r c : Nat) (hr : r < 128) (hc : c < 64) :
    (ained_get_bit (ained_flip_isolated_bit s r c) r c = 1 - ained_get_bit s r c) ∧
    (∀ r' c', r' < 128 → c' < 64 → (r', c') ≠ (r, c) →
      ained_get_bit (ained_flip_isolated_bit s r c) r' c' = ained_get_bit s r' c') ∧
    (∀ r' c', r' < 128 → c' < 64 →
      ained_get_bit (ained_flip_isolated_bit (ained_flip_isolated_bit s r c) r c) r' c' =
        ained_get_bit s r' c') := by
  have hm2 : (ained_flip_isolated_bit s r c).maskReg = MASK64 :=
    (ained_flip_isolated_bit_regs s r c).1.trans hm
  refine ⟨?_, ?_, ?_⟩
  · rw [ained_get_bit_eq, ained_get_bit_eq, memTestBit_flip s hm]
    rw [decide_eq_true ⟨rfl, rfl⟩]
    cases memTestBit s r c <;> rfl
  · intro r' c' hr' hc' hne
    rw [ained_get_bit_eq, ained_get_bit_eq, memTestBit_flip s hm]
    have hmiss : ¬(ained_get_index r' c' = ained_get_index r c ∧
        ained_get_word_index r' c' = ained_get_word_index r c) := by
      rintro ⟨h1, h2⟩
      obtain ⟨h3, h4⟩ := phys_inj hr' hc' hr hc h1 h2
      exact hne (by rw [h3, h4])
    rw [decide_eq_false hmiss, Bool.xor_false]
  · intro r' c' hr' hc'
    rw [ained_get_bit_eq, ained_get_bit_eq, memTestBit_flip _ hm2, memTestBit_flip s hm,
      Bool.xor_assoc, Bool.xor_self, Bool.xor_false]

theorem C9_flip_isolated_amended_witness :
    ained_get_bit (ained_flip_isolated_bit S0M 3 4) 3 4 = 1 - ained_get_bit S0M 3 4 ∧
    ained_get_bit (ained_flip_isolated_bit S0M 3 4) 3 5 = ained_get_bit S0M 3 5 ∧
    ained_get_bit (ained_flip_isolated_bit (ained_flip_isolated_bit S0M 3 4) 3 4) 3 4 =
      ained_get_bit S0M 3 4 :=
  ⟨(C9_flip_isolated_amended S0M rfl 3 4 (by norm_num) (by norm_num)).1,
   (C9_flip_isolated_amended S0M rfl 3 4 (by norm_num) (by norm_num)).2.1 3 5
     (by norm_num) (by norm_num) (by decide),
   (C9_flip_isolated_amended S0M rfl 3 4 (by norm_num) (by norm_num)).2.2 3 4
     (by norm_num) (by norm_num)⟩

/-- `ained_set_bit` when the pending transaction already targets the same
word: the bit is merged into the pending value/mask pair. -/
lemma ained_set_bit_same (s : Ained) (r c v : Nat)
    (hidx : s.index = (ained_get_index r c : Int)) :
    ained_set_bit s r c v =
      ({ s with index := (ained_get_index r c : Int),
                value := if v ≠ 0 then s.value ||| (1 <<< ained_get_word_index r c)
                  else s.value &&& (MASK64 ^^^ (1 <<< ained_get_word_index r c)),
                mask := s.mask ||| (1 <<< ained_get_word_index r c) }, none) := by
  have hguard : ¬(0 ≤ s.index ∧ ((ained_get_index r c : Nat) : Int) ≠ s.index) := by
    rw [hidx]
    rintro ⟨-, hne⟩
    exact hne rfl
  simp only [ained_set_bit]
  rw [if_neg hguard]
  by_cases hv0 : v ≠ 0
  · rw [if_pos hv0, if_pos hv0]
  · rw [if_neg hv0, if_neg hv0]

/-- C4: setting two bits of the same word and committing yields a word in
which the two masked bit positions carry the two requested values, every
other bit position of that word keeps its pre-commit value, every other
word is untouched, and the pending transaction is cleared. -/
theorem C4_same_word_masked_commit
    (s : Ained) (hidx : s.index = -1) (hmk : s.mask = 0) (hvl : s.value = 0)
    (r1 c1 v1 r2 c2 v2 : Nat)
    (hw : ained_get_index r1 c1 = ained_get_index r2 c2)
    (hb : ained_get_word_index r1 c1 ≠ ained_get_word_index r2 c2)
    (hmem : s.memory (ained_get_index r1 c1) < 2 ^ 64) :
    (((ained_commit (ained_set_bit (ained_set_bit s r1 c1 v1).1 r2 c2 v2).1).1.memory
        (ained_get_index r1 c1)).testBit (ained_get_word_index r1 c1) = true ↔ v1 ≠ 0) ∧
    (((ained_commit (ained_set_bit (ained_set_bit s r1 c1 v1).1 r2 c2 v2).1).1.memory
        (ained_get_index r1 c1)).testBit (ained_get_word_index r2 c2) = true ↔ v2 ≠ 0) ∧
    (∀ b, b ≠ ained_get_word_index r1 c1 → b ≠ ained_get_word_index r2 c2 →
      ((ained_commit (ained_set_bit (ained_set_bit s r1 c1 v1).1 r2 c2 v2).1).1.memory
        (ained_get_index r1 c1)).testBit b =
      (s.memory (ained_get_index r1 c1)).testBit b) ∧
    (∀ w, w ≠ ained_get_index r1 c1 →
      (ained_commit (ained_set_bit (ained_set_bit s r1 c1 v1).1 r2 c2 v2).1).1.memory w =
        s.memory w) ∧
    (ained_commit (ained_set_bit (ained_set_bit s r1 c1 v1).1 r2 c2 v2).1).1.index = -1 ∧
    (ained_commit (ained_set_bit (ained_set_bit s r1 c1 v1).1 r2 c2 v2).1).1.mask = 0 ∧
    (ained_commit (ained_set_bit (ained_set_bit s r1 c1 v1).1 r2 c2 v2).1).1.value = 0 := by
  have hs1 := ained_set_bit_clean s hidx hmk hvl r1 c1 v1
  have h1i : (ained_set_bit s r1 c1 v1).1.index = (ained_get_index r1 c1 : Int) := by
    rw [hs1]
  have h1v : (ained_set_bit s r1 c1 v1).1.value =
      (if v1 ≠ 0 then 1 <<< ained_get_word_index r1 c1 else 0) := by rw [hs1]
  have h1m : (ained_set_bit s r1 c1 v1).1.mask = 1 <<< ained_get_word_index r1 c1 := by
    rw [hs1]
  have h1mem : (ained_set_bit s r1 c1 v1).1.memory = s.memory := by rw [hs1]
  have hs2 := ained_set_bit_same (ained_set_bit s r1 c1 v1).1 r2 c2 v2
    (by rw [h1i, hw])
  have h2i : (ained_set_bit (ained_set_bit s r1 c1 v1).1 r2 c2 v2).1.index =
      (ained_get_index r2 c2 : Int) := by rw [hs2]
  have h2v : (ained_set_bit (ained_set_bit s r1 c1 v1).1 r2 c2 v2).1.value =
      (if v2 ≠ 0 then (ained_set_bit s r1 c1 v1).1.value ||| (1 <<< ained_get_word_index r2 c2)
        else (ained_set_bit s r1 c1 v1).1.value &&&
          (MASK64 ^^^ (1 <<< ained_get_word_index r2 c2))) := by rw [hs2]
  have h2m : (ained_set_bit (ained_set_bit s r1 c1 v1).1 r2 c2 v2).1.mask =
      (ained_set_bit s r1 c1 v1).1.mask ||| (1 <<< ained_get_word_index r2 c2) := by rw [hs2]
  have h2mem : (ained_set_bit (ained_set_bit s r1 c1 v1).1 r2 c2 v2).1.memory = s.memory := by
    rw [hs2]
    exact h1mem
  have hpos : 0 ≤ (ained_set_bit (ained_set_bit s r1 c1 v1).1 r2 c2 v2).1.index := by
    rw [h2i]
    positivity
  have htoNat : (ained_set_bit (ained_set_bit s r1 c1 v1).1 r2 c2 v2).1.index.toNat =
      ained_get_index r2 c2 := by
    rw [h2i]
    simp
  rcases ained_commit_fields _ hpos with ⟨hf1, hf2, hf3, -⟩
  have hb1lt := ained_get_word_index_lt r1 c1
  have hb2lt := ained_get_word_index_lt r2 c2
  have hb' : ained_get_word_index r2 c2 ≠ ained_get_word_index r1 c1 := Ne.symm hb
  refine ⟨?_, ?_, ?_, ?_, hf1, hf2, hf3⟩
  · rw [ained_commit_memory _ hpos, htoNat, if_pos hw, h2mem, h2v, h2m, h1v, h1m, ← hw]
    by_cases hv1 : v1 ≠ 0 <;> by_cases hv2 : v2 ≠ 0 <;>
      simp [hv1, hv2, shiftLeft_one_eq, Nat.testBit_or, Nat.testBit_and, Nat.testBit_xor,
        testBit_MASK64, Nat.testBit_two_pow, Nat.zero_testBit, hb1lt, hb, hb']
  · rw [ained_commit_memory _ hpos, htoNat, if_pos hw, h2mem, h2v, h2m, h1v, h1m, ← hw]
    by_cases hv1 : v1 ≠ 0 <;> by_cases hv2 : v2 ≠ 0 <;>
      simp [hv1, hv2, shiftLeft_one_eq, Nat.testBit_or, Nat.testBit_and, Nat.testBit_xor,
        testBit_MASK64, Nat.testBit_two_pow, Nat.zero_testBit, hb2lt, hb, hb']
  · intro b hbb1 hbb2
    rw [ained_commit_memory _ hpos, htoNat, if_pos hw, h2mem, h2v, h2m, h1v, h1m, ← hw]
    by_cases hblt : b < 64
    · by_cases hv1 : v1 ≠ 0 <;> by_cases hv2 : v2 ≠ 0 <;>
        simp [hv1, hv2, shiftLeft_one_eq, Nat.testBit_or, Nat.testBit_and, Nat.testBit_xor,
          testBit_MASK64, Nat.testBit_two_pow, Nat.zero_testBit, hblt,
          Ne.symm hbb1, Ne.symm hbb2]
    · have hold : (s.memory (ained_get_index r1 c1)).testBit b = false := by
        apply Nat.testBit_lt_two_pow
        calc s.memory (ained_get_index r1 c1) < 2 ^ 64 := hmem
          _ ≤ 2 ^ b := Nat.pow_le_pow_right (by norm_num) (by omega)
      by_cases hv1 : v1 ≠ 0 <;> by_cases hv2 : v2 ≠ 0 <;>
        simp [hv1, hv2, shiftLeft_one_eq, Nat.testBit_or, Nat.testBit_and, Nat.testBit_xor,
          testBit_MASK64, Nat.testBit_two_pow, Nat.zero_testBit, hblt, hold,
          Ne.symm hbb1, Ne.symm hbb2]
  · intro w hwne
    rw [ained_commit_memory _ hpos, htoNat, if_neg (by rw [← hw]; exact hwne), h2mem]

/-- A concrete device whose every memory word holds `5` (bits 0 and 2). -/
def S5 : Ained := { S0 with memory := fun _ => 5 }

theorem C4_same_word_masked_commit_witness :
    (((ained_commit (ained_set_bit (ained_set_bit S5 0 0 0).1 0 1 1).1).1.memory
        (ained_get_index 0 0)).testBit (ained_get_word_index 0 0) = true ↔ (0 : Nat) ≠ 0) ∧
    (((ained_commit (ained_set_bit (ained_set_bit S5 0 0 0).1 0 1 1).1).1.memory
        (ained_get_index 0 0)).testBit (ained_get_word_index 0 1) = true ↔ (1 : Nat) ≠ 0) ∧
    ((ained_commit (ained_set_bit (ained_set_bit S5 0 0 0).1 0 1 1).1).1.memory
        (ained_get_index 0 0)).testBit 2 = (S5.memory (ained_get_index 0 0)).testBit 2 ∧
    (ained_commit (ained_set_bit (ained_set_bit S5 0 0 0).1 0 1 1).1).1.memory 7 =
      S5.memory 7 ∧
    (ained_commit (ained_set_bit (ained_set_bit S5 0 0 0).1 0 1 1).1).1.index = -1 :=
  ⟨(C4_same_word_masked_commit S5 rfl rfl rfl 0 0 0 0 1 1 (by decide) (by decide)
      (by norm_num [S5, S0])).1,
   (C4_same_word_masked_commit S5 rfl rfl rfl 0 0 0 0 1 1 (by decide) (by decide)
      (by norm_num [S5, S0])).2.1,
   (C4_same_word_masked_commit S5 rfl rfl rfl 0 0 0 0 1 1 (by decide) (by decide)
      (by norm_num [S5, S0])).2.2.1 2 (by decide) (by decide),
   (C4_same_word_masked_commit S5 rfl rfl rfl 0 0 0 0 1 1 (by decide) (by decide)
      (by norm_num [S5, S0])).2.2.2.1 7 (by decide),
   (C4_same_word_masked_commit S5 rfl rfl rfl 0 0 0 0 1 1 (by decide) (by decide)
      (by norm_num [S5, S0])).2.2.2.2.1⟩

/-- `ained_set_bit` when a transaction is pending on a different word:
rejected, state returned untouched. -/
lemma ained_set_bit_conflict (t : Ained) (r c v : Nat) (w : Nat)
    (hidx : t.index = (w : Int)) (hne : ained_get_index r c ≠ w) :
    ained_set_bit t r c v = (t, some AinedError.CrossWordConflict) := by
  simp only [ained_set_bit]
  rw [if_pos ⟨by rw [hidx]; positivity, by rw [hidx]; exact_mod_cast hne⟩]

/-- C5: a second `ained_set_bit` addressing a different word than the
pending transaction is rejected with `CrossWordConflict`, the attempted
bit is dropped, and the first call's pending state (word index, value
bits, mask bits) is returned completely unchanged. -/
theorem C5_cross_word_conflict
    (s : Ained) (hidx : s.index = -1) (hmk : s.mask = 0) (hvl : s.value = 0)
    (r1 c1 v1 r2 c2 v2 : Nat)
    (hw : ained_get_index r1 c1 ≠ ained_get_index r2 c2) :
    ained_set_bit (ained_set_bit s r1 c1 v1).1 r2 c2 v2 =
      ((ained_set_bit s r1 c1 v1).1, some AinedError.CrossWordConflict) ∧
    (ained_set_bit s r1 c1 v1).1.index = (ained_get_index r1 c1 : Int) ∧
    (ained_set_bit s r1 c1 v1).1.mask = 1 <<< ained_get_word_index r1 c1 ∧
    (ained_set_bit s r1 c1 v1).1.value =
      (if v1 ≠ 0 then 1 <<< ained_get_word_index r1 c1 else 0) := by
  have hs1 := ained_set_bit_clean s hidx hmk hvl r1 c1 v1
  have h1i : (ained_set_bit s r1 c1 v1).1.index = (ained_get_index r1 c1 : Int) := by
    rw [hs1]
  refine ⟨?_, h1i, by rw [hs1], by rw [hs1]⟩
  exact ained_set_bit_conflict _ r2 c2 v2 (ained_get_index r1 c1) h1i (Ne.symm hw)

theorem C5_cross_word_conflict_witness :
    ained_set_bit (ained_set_bit S0 0 0 1).1 8 0 1 =
      ((ained_set_bit S0 0 0 1).1, some AinedError.CrossWordConflict) ∧
    (ained_set_bit S0 0 0 1).1.index = (ained_get_index 0 0 : Int) :=
  ⟨(C5_cross_word_conflict S0 rfl rfl rfl 0 0 1 8 0 1 (by decide)).1,
   (C5_cross_word_conflict S0 rfl rfl rfl 0 0 1 8 0 1 (by decide)).2.1⟩

/-- C6 counterexample: the claim puts both indices in `[0, 63]`, but the
word index of the valid cell `(127, 0)` is `120`. -/
theorem C6_word_index_range_counterexample :
    127 < 128 ∧ 0 < 64 ∧ ained_get_index 127 0 = 120 ∧ ¬(ained_get_index 127 0 ≤ 63) := by
  decide

/-- C6 amended: for valid coordinates, `ained_get_index` and
`ained_get_word_index` compute `(row/8)*8 + col/8` and `(row%8)*8 + col%8`,
the word index lies in `[0, 127]` and the bit index in `[0, 63]`, the map
is injective over the grid, and its image covers all 128 words × 64 bit
positions. -/
theorem C6_to_physical_amended :
    (∀ r c, r < 128 → c < 64 →
      ained_get_index r c = (r / 8) * 8 + c / 8 ∧
      ained_get_word_index r c = (r % 8) * 8 + c % 8 ∧
      ained_get_index r c < 128 ∧ ained_get_word_index r c < 64) ∧
    (∀ r c r' c', r < 128 → c < 64 → r' < 128 → c' < 64 →
      ained_get_index r c = ained_get_index r' c' →
      ained_get_word_index r c = ained_get_word_index r' c' → r = r' ∧ c = c') ∧
    (∀ w b, w < 128 → b < 64 → ∃ r c, r < 128 ∧ c < 64 ∧
      ained_get_index r c = w ∧ ained_get_word_index r c = b) := by
  refine ⟨?_, ?_, ?_⟩
  · intro r c hr hc
    exact ⟨rfl, rfl, ained_get_index_lt r c hr hc, ained_get_word_index_lt r c⟩
  · intro r c r' c' hr hc hr' hc' h1 h2
    exact phys_inj hr hc hr' hc' h1 h2
  · intro w b hw hb
    refine ⟨(w / 8) * 8 + b / 8, (w % 8) * 8 + b % 8, by omega, by omega, ?_, ?_⟩
    · unfold ained_get_index bsize
      omega
    · unfold ained_get_word_index bsize
      omega

theorem C6_to_physical_amended_witness :
    (ained_get_index 17 42 = (17 / 8) * 8 + 42 / 8 ∧
      ained_get_word_index 17 42 = (17 % 8) * 8 + 42 % 8 ∧
      ained_get_index 17 42 < 128 ∧ ained_get_word_index 17 42 < 64) ∧
    (∃ r c, r < 128 ∧ c < 64 ∧ ained_get_index r c = 77 ∧ ained_get_word_index r c = 33) :=
  ⟨C6_to_physical_amended.1 17 42 (by norm_num) (by norm_num),
   C6_to_physical_amended.2.2 77 33 (by norm_num) (by norm_num)⟩

/-- A concrete device that detected exactly one dipole (valid index 0). -/
def S7 : Ained := { S0 with numDipoles := 1 }

/-- C7: evaluation at the first invalid dipole index.  With one detected
dipole the valid indices are `0 .. num_dipoles - 1 = 0`, yet the range
check `dipole > handle->num_dipoles` accepts `dipole = num_dipoles = 1`:
the write is not rejected (no diagnostic) and modifies the register block
instead of being a no-op, and the read is not rejected either. -/
theorem C7_dipole_range_off_by_one :
    (ained_set_dipole_rng S7 1 7 8 9).2 = none ∧
    (ained_set_dipole_rng S7 1 7 8 9).1.dipoleReg (1 * 4 + 1) = 7 ∧
    S7.dipoleReg (1 * 4 + 1) = 0 ∧
    (ained_get_dipole_rng S7 1).2.2 = none := by
  refine ⟨?_, ?_, rfl, ?_⟩ <;> decide

/-! ### Coefficient kernel generation

The C kernel generators compute with IEEE doubles; they are embedded here
over the exact reals (`Real.sqrt`, real exponentiation), the standard
idealisation of the floating-point code.  All quantities compared below
(integer square roots against integer thresholds, `pow(1.0, d) = 1.0`,
`round`, `fmin`) are exact in double precision for the inputs in question, so
the idealisation agrees with the machine arithmetic on everything stated.
-/

/-- The per-cell byte of the kernel loops of
`ained_set_coefficients_euclidean` / `ained_set_coefficients_manhattan`:
`f = (0 < distance ∧ distance ≤ reach) ? factor^distance : 0` and
`v = fmin(round(f * 256), 255)` stored as an unsigned byte. -/
noncomputable def kernel_value (factor : ℝ) (reach : Nat) (distance : ℝ) : ℕ :=
  let f : ℝ := if 0 < distance ∧ distance ≤ (reach : ℝ) then factor ^ distance else 0
  (min (round (f * 256)) 255).toNat

/-- `fmax(0, sqrt(r*r + c*c) - 1)` of `ained_set_coefficients_euclidean`. -/
noncomputable def euclid_distance (r c : Nat) : ℝ :=
  max 0 (Real.sqrt ((r : ℝ) * r + c * c) - 1)

/-- `fmax(0, r + c - 1)` of `ained_set_coefficients_manhattan`. -/
noncomputable def manhattan_distance (r c : Nat) : ℝ :=
  max 0 ((r : ℝ) + c - 1)

/-- The 24 stored bytes of the Euclidean kernel: the loop stores
`cfs.fields[ind]` for `ind = r*5 + c - 1 ≥ 0`, i.e. position `ind` holds
the byte of cell `(r, c) = ((ind+1)/5, (ind+1)%5)` (each `ind` is written
exactly once). -/
noncomputable def euclidean_field (factor : ℝ) (reach : Nat) (ind : Fin 24) : ℕ :=
  kernel_value factor reach (euclid_distance ((ind.val + 1) / 5) ((ind.val + 1) % 5))

/-- The 24 stored bytes of the Manhattan kernel, indexed as in
`euclidean_field`. -/
noncomputable def manhattan_field (factor : ℝ) (reach : Nat) (ind : Fin 24) : ℕ :=
  kernel_value factor reach (manhattan_distance ((ind.val + 1) / 5) ((ind.val + 1) % 5))

lemma kernel_value_one (reach : Nat) (d : ℝ) :
    kernel_value 1 reach d = if 0 < d ∧ d ≤ (reach : ℝ) then 255 else 0 := by
  unfold kernel_value
  by_cases h : 0 < d ∧ d ≤ (reach : ℝ)
  · rw [if_pos h, if_pos h, Real.one_rpow]
    show (min (round ((1 : ℝ) * 256)) 255).toNat = 255
    norm_num
    rfl
  · rw [if_neg h, if_neg h]
    show (min (round ((0 : ℝ) * 256)) 255).toNat = 0
    norm_num

lemma euclid_cond (reach r c : Nat) :
    (0 < euclid_distance r c ∧ euclid_distance r c ≤ (reach : ℝ)) ↔
      (1 < r * r + c * c ∧ r * r + c * c ≤ (reach + 1) * (reach + 1)) := by
  unfold euclid_distance
  have h1 : (0 < max 0 (Real.sqrt ((r : ℝ) * r + c * c) - 1)) ↔
      1 < (r : ℝ) * r + c * c := by
    rw [lt_max_iff]
    simp only [lt_self_iff_false, false_or]
    rw [sub_pos, Real.lt_sqrt (by norm_num : (0:ℝ) ≤ 1), one_pow]
  have h2 : (max 0 (Real.sqrt ((r : ℝ) * r + c * c) - 1) ≤ (reach : ℝ)) ↔
      (r : ℝ) * r + c * c ≤ ((reach : ℝ) + 1) ^ 2 := by
    rw [max_le_iff, and_iff_right (by positivity : (0:ℝ) ≤ (reach : ℝ)),
      sub_le_iff_le_add]
    exact Real.sqrt_le_left (by positivity)
  rw [h1, h2]
  have hc1 : (1 < (r : ℝ) * r + c * c) ↔ 1 < r * r + c * c := by
    exact_mod_cast Iff.rfl
  have hc2 : ((r : ℝ) * r + c * c ≤ ((reach : ℝ) + 1) ^ 2) ↔
      r * r + c * c ≤ (reach + 1) * (reach + 1) := by
    rw [sq]
    exact_mod_cast Iff.rfl
  rw [hc1, hc2]

lemma manhattan_cond (reach r c : Nat) :
    (0 < manhattan_distance r c ∧ manhattan_distance r c ≤ (reach : ℝ)) ↔
      (1 < r + c ∧ r + c ≤ reach + 1) := by
  unfold manhattan_distance
  have h1 : (0 < max 0 ((r : ℝ) + c - 1)) ↔ 1 < (r : ℝ) + c := by
    rw [lt_max_iff]
    simp only [lt_self_iff_false, false_or]
    rw [sub_pos]
  have h2 : (max 0 ((r : ℝ) + c - 1) ≤ (reach : ℝ)) ↔ (r : ℝ) + c ≤ (reach : ℝ) + 1 := by
    rw [max_le_iff, and_iff_right (by positivity : (0:ℝ) ≤ (reach : ℝ)),
      sub_le_iff_le_add]
  rw [h1, h2]
  have hc1 : (1 < (r : ℝ) + c) ↔ 1 < r + c := by exact_mod_cast Iff.rfl
  have hc2 : ((r : ℝ) + c ≤ (reach : ℝ) + 1) ↔ r + c ≤ reach + 1 := by
    exact_mod_cast Iff.rfl
  rw [hc1, hc2]

/-- C8 counterexample: with `factor = 1.0` and `reach = 1 > 0`, the stored
byte at index 0 — the cross-adjacent cell `(r, c) = (0, 1)`, whose
distance is `max(0, sqrt(1) - 1) = 0` under both metrics — is 0, not 255,
in both kernels. -/
theorem C8_factor_one_counterexample :
    euclidean_field 1 1 ⟨0, by norm_num⟩ = 0 ∧
    manhattan_field 1 1 ⟨0, by norm_num⟩ = 0 := by
  constructor
  · show kernel_value 1 1 (euclid_distance 0 1) = 0
    rw [kernel_value_one, if_neg]
    rw [euclid_cond]
    norm_num
  · show kernel_value 1 1 (manhattan_distance 0 1) = 0
    rw [kernel_value_one, if_neg]
    rw [manhattan_cond]
    norm_num

/-- C8 amended: for `factor = 1.0` and every `reach`, each of the 24 stored
non-center bytes equals 255 exactly when its cell's distance `d` satisfies
`0 < d ≤ reach` — for the Euclidean kernel, when `1 < r² + c²` and
`r² + c² ≤ (reach+1)²`; for the Manhattan kernel, when `1 < r + c` and
`r + c ≤ reach + 1` — and equals 0 otherwise.  In particular the two
cross-adjacent cells are always 0, and cells beyond `reach` are 0. -/
theorem C8_factor_one_amended (reach : Nat) (ind : Fin 24) :
    euclidean_field 1 reach ind =
      (if 1 < ((ind.val + 1) / 5) * ((ind.val + 1) / 5) +
            ((ind.val + 1) % 5) * ((ind.val + 1) % 5) ∧
          ((ind.val + 1) / 5) * ((ind.val + 1) / 5) +
            ((ind.val + 1) % 5) * ((ind.val + 1) % 5) ≤ (reach + 1) * (reach + 1)
        then 255 else 0) ∧
    manhattan_field 1 reach ind =
      (if 1 < ((ind.val + 1) / 5) + ((ind.val + 1) % 5) ∧
          ((ind.val + 1) / 5) + ((ind.val + 1) % 5) ≤ reach + 1
        then 255 else 0) := by
  constructor
  · unfold euclidean_field
    rw [kernel_value_one]
    exact if_congr (euclid_cond reach _ _) rfl rfl
  · unfold manhattan_field
    rw [kernel_value_one]
    exact if_congr (manhattan_cond reach _ _) rfl rfl
